import Mathlib

/-!
Verification of the `godotfiles` dotfile-repo manager (`main.go`).

Paths and names are modelled as `List Char`.  The Go string and filepath
primitives used by the program (`strings.TrimPrefix`, `strings.TrimSuffix`,
`filepath.Base`, `filepath.Ext`, `filepath.Join`/`Clean` on unix) are
translated directly.  Each command handler (`executeInit`, `executeStatus`,
`executeAdd`, `executeList`, `executeSave`, `executePull`) is embedded as a
function from an oracle environment `Env` (the go-git library calls, the
filesystem, and the environment variables) to its returned error and the
ordered trace of external actions it performs.
-/

namespace GoDotfiles

abbrev Str := List Char

/-- Go `strings.TrimPrefix(s, pre)`: drop `pre` from the front of `s` when it
is a prefix, otherwise return `s` unchanged. -/
def trimPrefixGo (s pre : Str) : Str :=
  if pre.isPrefixOf s then s.drop pre.length else s

/-- Go `strings.TrimSuffix(s, suf)`: drop `suf` from the end of `s` when it
is a suffix, otherwise return `s` unchanged. -/
def trimSuffixGo (s suf : Str) : Str :=
  if suf.isSuffixOf s then s.take (s.length - suf.length) else s

/-- Go `path/filepath.Base` on unix: empty path gives `.`; trailing
separators are stripped; the part after the last separator is returned;
a path of only separators gives `/`. -/
def goBase (path : Str) : Str :=
  if path = [] then ['.']
  else
    let p1 := (path.reverse.dropWhile (fun c => c == '/')).reverse
    let p2 := (p1.reverse.takeWhile (fun c => !(c == '/'))).reverse
    if p2 = [] then ['/'] else p2

/-- Helper for `extGo`: scan the reversed path; a separator ends the scan
with no extension, a dot returns the dot plus the accumulated tail. -/
def extGoAux : Str → Str → Str
  | [], _ => []
  | c :: rest, acc =>
    if c == '/' then []
    else if c == '.' then c :: acc
    else extGoAux rest (c :: acc)

/-- Go `path/filepath.Ext`: the suffix of the final element starting at its
last dot, empty when the final element has no dot. -/
def extGo (path : Str) : Str := extGoAux path.reverse []

/-- Split a path into its `/`-separated components. -/
def splitSlash : Str → List Str
  | [] => [[]]
  | '/' :: rest => [] :: splitSlash rest
  | c :: rest =>
    match splitSlash rest with
    | [] => [[c]]
    | s :: ss => (c :: s) :: ss

/-- Component processing of Go `path/filepath.Clean` (unix): empty and `.`
components are dropped; `..` pops a non-`..` stack entry, is dropped at the
root, and is kept when nothing can be popped in a relative path. -/
def cleanComps (rooted : Bool) : List Str → List Str → List Str
  | stack, [] => stack.reverse
  | stack, c :: cs =>
    if c = [] ∨ c = ['.'] then cleanComps rooted stack cs
    else if c = ['.', '.'] then
      match stack with
      | [] => if rooted then cleanComps rooted [] cs else cleanComps rooted [['.', '.']] cs
      | top :: rest =>
        if top = ['.', '.'] then cleanComps rooted (c :: top :: rest) cs
        else cleanComps rooted rest cs
    else cleanComps rooted (c :: stack) cs

/-- Join components with `/`. -/
def intercalateSlash : List Str → Str
  | [] => []
  | [c] => c
  | c :: cs => c ++ '/' :: intercalateSlash cs

/-- Whether a path is absolute (starts with a separator). -/
def isRooted : Str → Bool
  | '/' :: _ => true
  | _ => false

/-- Go `path/filepath.Clean` on unix, via component processing. -/
def goClean (path : Str) : Str :=
  if path = [] then ['.']
  else
    let rooted := isRooted path
    let stack := cleanComps rooted [] (splitSlash path)
    let body := intercalateSlash stack
    if rooted then (if body = [] then ['/'] else '/' :: body)
    else (if body = [] then ['.'] else body)

/-- Go `path/filepath.Join(a, b)` on unix: empty elements are skipped and
the `/`-joined rest is cleaned. -/
def goJoin2 (a b : Str) : Str :=
  if a = [] then (if b = [] then [] else goClean b)
  else goClean (a ++ '/' :: b)

/-- `dotfilesBasedir` from `main.go`. -/
def dotfilesBasedir : Str := "./dotfiles".data

/-- `dotfilesWorkdir` from `main.go`. -/
def dotfilesWorkdir : Str := "./workdir".data

/-- External actions a command may perform, in program order: filesystem
reads, go-git library calls and lines printed to standard output. -/
inductive Action where
  | readDir : Action
  | openRepo (name : Str) : Action
  | worktree (name : Str) : Action
  | statusOf (name : Str) : Action
  | stage (name path : Str) : Action
  | commit (name msg : Str) : Action
  | auth : Action
  | push (name : Str) : Action
  | pull (name : Str) : Action
  | clone (path url : Str) : Action
  | openWorkdir : Action
  | worktreeInit : Action
  | checkout : Action
  | print (line : Str) : Action
deriving DecidableEq

/-- Oracle environment: results of the go-git library calls, of the
filesystem reads, of `filepath.Abs`, and the two author environment
variables read by `getAuthor`. -/
structure Env where
  authorName : Str
  authorEmail : Str
  absPath : Str → Str
  readBasedir : Except Str (List Str)
  openRepo : Str → Except Str Unit
  worktree : Str → Except Str Unit
  repoStatus : Str → Except Str (List (Str × Char))
  stage : Str → Str → Except Str Unit
  commit : Str → Str → Except Str Unit
  authMethod : Except Str Unit
  push : Str → Except Str Unit
  pullOp : Str → Except Str Unit
  clone : Str → Str → Except Str Unit
  openWork : Except Str Unit
  initWorktree : Except Str Unit
  checkout : Except Str Unit

/-- `getAuthor` from `main.go`: reads `GIT_AUTHOR_NAME` and
`GIT_AUTHOR_EMAIL` and fails when either is empty (error text kept verbatim,
typo included). -/
def getAuthor (env : Env) : Except Str (Str × Str) :=
  if env.authorName = [] ∨ env.authorEmail = [] then
    Except.error "GIT_AUTHOR_NAME and GIT_AUTHOR_EMAIL envionment variables must exist.".data
  else Except.ok (env.authorName, env.authorEmail)

/-- `baseName` from `main.go`: `filepath.Base` of the URL (the returned Go
error is always nil). -/
def baseName (repoUrl : Str) : Str := goBase repoUrl

/-- git worktree status codes shown by `executeStatus`:
`git.Modified = 'M'`, `git.Added = 'A'`, `git.Deleted = 'D'` (the switch
with fallthrough in `main.go`). -/
def showsWorktree (c : Char) : Bool := c == 'M' || c == 'A' || c == 'D'

/-- The `"[%c] %s"` line printed for a shown file. -/
def statusLine (f : Str) (c : Char) : Str := '[' :: c :: ']' :: ' ' :: f

/-- The per-file loop of `executeStatus`: one printed line per file whose
worktree status is Modified, Added or Deleted. -/
def printStatus : List (Str × Char) → List Action
  | [] => []
  | (f, s) :: rest =>
    if showsWorktree s then Action.print (statusLine f s) :: printStatus rest
    else printStatus rest

/-- The per-repo loop of `executeStatus`: print the `name:` header, open the
working repo, take its worktree, read its status, print the filtered lines;
return on the first error. -/
def statusLoop (env : Env) : List Str → Except Str Unit × List Action
  | [] => (Except.ok (), [])
  | n :: rest =>
    match env.openRepo n with
    | Except.error e => (Except.error e, [Action.print (n ++ [':']), Action.openRepo n])
    | Except.ok _ =>
      match env.worktree n with
      | Except.error e =>
        (Except.error e, [Action.print (n ++ [':']), Action.openRepo n, Action.worktree n])
      | Except.ok _ =>
        match env.repoStatus n with
        | Except.error e =>
          (Except.error e,
           [Action.print (n ++ [':']), Action.openRepo n, Action.worktree n, Action.statusOf n])
        | Except.ok st =>
          ((statusLoop env rest).1,
           Action.print (n ++ [':']) :: Action.openRepo n :: Action.worktree n ::
             Action.statusOf n :: (printStatus st ++ (statusLoop env rest).2))

/-- `executeStatus` from `main.go`: with an empty repo name, read the base
directory and trim the `.git` suffix from every entry; otherwise use the
given name; then run the per-repo loop. -/
def executeStatus (env : Env) (repoName : Str) : Except Str Unit × List Action :=
  if repoName = [] then
    match env.readBasedir with
    | Except.error e => (Except.error e, [Action.readDir])
    | Except.ok files =>
      ((statusLoop env (files.map (fun n => trimSuffixGo n ".git".data))).1,
       Action.readDir :: (statusLoop env (files.map (fun n => trimSuffixGo n ".git".data))).2)
  else statusLoop env [repoName]

/-- The staged path computed by `executeAdd`: strip the absolute workdir
prefix, then strip one leading separator. -/
def addPath (absSrc absDst : Str) : Str :=
  trimPrefixGo (trimPrefixGo absSrc absDst) ['/']

/-- `executeAdd` from `main.go`: print, open the working repo, take its
worktree, compute the relative path from the absolute file and workdir
paths, and stage it; the staging error is returned as is. -/
def executeAdd (env : Env) (repoName addfile : Str) : Except Str Unit × List Action :=
  let p0 := Action.print ("Adding ".data ++ addfile ++ " to ".data ++ repoName)
  match env.openRepo repoName with
  | Except.error e => (Except.error e, [p0, Action.openRepo repoName])
  | Except.ok _ =>
    match env.worktree repoName with
    | Except.error e => (Except.error e, [p0, Action.openRepo repoName, Action.worktree repoName])
    | Except.ok _ =>
      (env.stage repoName (addPath (env.absPath addfile) (env.absPath dotfilesWorkdir)),
       [p0, Action.openRepo repoName, Action.worktree repoName,
        Action.stage repoName (addPath (env.absPath addfile) (env.absPath dotfilesWorkdir))])

/-- `executeList` from `main.go`: verbose mode is a fixed error before any
directory read; otherwise print each base-directory entry with
`filepath.Ext` trimmed off. -/
def executeList (env : Env) (verbose : Bool) : Except Str Unit × List Action :=
  if verbose then (Except.error "verbose listing not implemented.".data, [])
  else
    match env.readBasedir with
    | Except.error e => (Except.error e, [Action.readDir])
    | Except.ok files =>
      (Except.ok (),
       Action.readDir :: files.map (fun n => Action.print (trimSuffixGo n (extGo n))))

/-- `executeSave` from `main.go`: open the working repo, take its worktree,
read the author, commit, resolve auth, push; return on the first error. -/
def executeSave (env : Env) (repoName msg : Str) : Except Str Unit × List Action :=
  match env.openRepo repoName with
  | Except.error e => (Except.error e, [Action.openRepo repoName])
  | Except.ok _ =>
    match env.worktree repoName with
    | Except.error e => (Except.error e, [Action.openRepo repoName, Action.worktree repoName])
    | Except.ok _ =>
      match getAuthor env with
      | Except.error e => (Except.error e, [Action.openRepo repoName, Action.worktree repoName])
      | Except.ok _ =>
        match env.commit repoName msg with
        | Except.error e =>
          (Except.error e,
           [Action.openRepo repoName, Action.worktree repoName, Action.commit repoName msg])
        | Except.ok _ =>
          match env.authMethod with
          | Except.error e =>
            (Except.error e,
             [Action.openRepo repoName, Action.worktree repoName, Action.commit repoName msg,
              Action.auth])
          | Except.ok _ =>
            (env.push repoName,
             [Action.openRepo repoName, Action.worktree repoName, Action.commit repoName msg,
              Action.auth, Action.push repoName])

/-- `executePull` from `main.go`: open the working repo, resolve auth, pull. -/
def executePull (env : Env) (repoName : Str) : Except Str Unit × List Action :=
  match env.openRepo repoName with
  | Except.error e => (Except.error e, [Action.openRepo repoName])
  | Except.ok _ =>
    match env.authMethod with
    | Except.error e => (Except.error e, [Action.openRepo repoName, Action.auth])
    | Except.ok _ => (env.pullOp repoName, [Action.openRepo repoName, Action.auth, Action.pull repoName])

/-- `executeInit` from `main.go`: derive the repo name with `baseName`, join
it onto the base directory, resolve auth, clone bare, open the shared
workdir against the cloned store, take its worktree, force-checkout. -/
def executeInit (env : Env) (repoUrl : Str) : Except Str Unit × List Action :=
  let p0 := Action.print ("Initialising repo ".data ++ repoUrl)
  let p1 := Action.print ("Repo basename = ".data ++ baseName repoUrl)
  let basePath := goJoin2 dotfilesBasedir (baseName repoUrl)
  let p2 := Action.print ("Repo basepath = ".data ++ basePath)
  match env.authMethod with
  | Except.error e => (Except.error e, [p0, p1, p2, Action.auth])
  | Except.ok _ =>
    match env.clone basePath repoUrl with
    | Except.error e => (Except.error e, [p0, p1, p2, Action.auth, Action.clone basePath repoUrl])
    | Except.ok _ =>
      let p3 := Action.print ("Workdir = ".data ++ dotfilesWorkdir)
      match env.openWork with
      | Except.error e =>
        (Except.error e,
         [p0, p1, p2, Action.auth, Action.clone basePath repoUrl, p3, Action.openWorkdir])
      | Except.ok _ =>
        match env.initWorktree with
        | Except.error e =>
          (Except.error e,
           [p0, p1, p2, Action.auth, Action.clone basePath repoUrl, p3, Action.openWorkdir,
            Action.worktreeInit])
        | Except.ok _ =>
          (env.checkout,
           [p0, p1, p2, Action.auth, Action.clone basePath repoUrl, p3, Action.openWorkdir,
            Action.worktreeInit, Action.checkout])

/-- The parsed CLI commands declared in `main.go` (`undo` included). -/
inductive Command where
  | initCmd (repoUrl : Str) : Command
  | pullCmd (repoName : Str) : Command
  | addCmd (repoName file : Str) : Command
  | saveCmd (repoName msg : Str) : Command
  | undoCmd (repoName : Str) : Command
  | listCmd (verbose : Bool) : Command
  | statusCmd (repoName : Str) : Command

/-- The switch in `main`: `undo` has no case, so `cmdErr` stays nil and
nothing runs for it. -/
def dispatch (env : Env) : Command → Except Str Unit × List Action
  | Command.initCmd u => executeInit env u
  | Command.listCmd v => executeList env v
  | Command.statusCmd r => executeStatus env r
  | Command.addCmd r f => executeAdd env r f
  | Command.saveCmd r m => executeSave env r m
  | Command.pullCmd r => executePull env r
  | Command.undoCmd _ => (Except.ok (), [])

/-- `main` after parsing: run the dispatched command; on error print the
error and exit 1, otherwise exit 0. -/
def mainRun (env : Env) (c : Command) : Nat × List Action :=
  match dispatch env c with
  | (Except.error e, tr) => (1, tr ++ [Action.print e])
  | (Except.ok _, tr) => (0, tr)

/-- Repo names visited by the status loop, in order (the `openRepo` calls). -/
def reposVisited (tr : List Action) : List Str :=
  tr.filterMap (fun a => match a with | Action.openRepo n => some n | _ => none)

/-- Whether an `Except` is a success. -/
def isOkE {ε α : Type} : Except ε α → Bool
  | Except.ok _ => true
  | Except.error _ => false

/-- A concrete all-succeeding environment used to evaluate the theorems on
concrete inputs.  Fields in declaration order: authorName, authorEmail,
absPath, readBasedir, openRepo, worktree, repoStatus, stage, commit,
authMethod, push, pullOp, clone, openWork, initWorktree, checkout. -/
def envA : Env :=
  ⟨"Al".data, "al@x".data,
   fun s => if s = dotfilesWorkdir then "/tmp/workdir".data else s,
   Except.ok ["alpha.git".data, "notes.txt".data],
   fun _ => Except.ok (), fun _ => Except.ok (),
   fun _ => Except.ok [("f1".data, 'M'), ("f2".data, '?')],
   fun _ _ => Except.ok (), fun _ _ => Except.ok (), Except.ok (),
   fun _ => Except.ok (), fun _ => Except.ok (), fun _ _ => Except.ok (),
   Except.ok (), Except.ok (), Except.ok ()⟩

/-- `envA` with an empty author-name environment variable. -/
def envNoAuthor : Env :=
  ⟨[], "al@x".data,
   fun s => if s = dotfilesWorkdir then "/tmp/workdir".data else s,
   Except.ok ["alpha.git".data, "notes.txt".data],
   fun _ => Except.ok (), fun _ => Except.ok (),
   fun _ => Except.ok [("f1".data, 'M'), ("f2".data, '?')],
   fun _ _ => Except.ok (), fun _ _ => Except.ok (), Except.ok (),
   fun _ => Except.ok (), fun _ => Except.ok (), fun _ _ => Except.ok (),
   Except.ok (), Except.ok (), Except.ok ()⟩

/-- `envA` with a failing push. -/
def envPushFail : Env :=
  ⟨"Al".data, "al@x".data,
   fun s => if s = dotfilesWorkdir then "/tmp/workdir".data else s,
   Except.ok ["alpha.git".data, "notes.txt".data],
   fun _ => Except.ok (), fun _ => Except.ok (),
   fun _ => Except.ok [("f1".data, 'M'), ("f2".data, '?')],
   fun _ _ => Except.ok (), fun _ _ => Except.ok (), Except.ok (),
   fun _ => Except.error "push failed".data, fun _ => Except.ok (),
   fun _ _ => Except.ok (), Except.ok (), Except.ok (), Except.ok ()⟩

theorem isPrefixOf_append_self (l r : Str) : l.isPrefixOf (l ++ r) = true := by
  induction l with
  | nil => simp [List.isPrefixOf]
  | cons a as ih => simp [List.isPrefixOf, ih]

theorem trimPrefixGo_append (d r : Str) : trimPrefixGo (d ++ r) d = r := by
  simp [trimPrefixGo, isPrefixOf_append_self, List.drop_left]

theorem trimPrefixGo_of_not_prefixOf (s pre : Str) (h : pre.isPrefixOf s = false) :
    trimPrefixGo s pre = s := by
  simp [trimPrefixGo, h]

theorem trimSuffixGo_of_not_suffixOf (s suf : Str) (h : suf.isSuffixOf s = false) :
    trimSuffixGo s suf = s := by
  simp [trimSuffixGo, h]

theorem addPath_inside (d rel : Str) : addPath (d ++ '/' :: rel) d = rel := by
  have h1 : trimPrefixGo (d ++ '/' :: rel) d = '/' :: rel := trimPrefixGo_append d ('/' :: rel)
  have h2 : trimPrefixGo ('/' :: rel) ['/'] = rel := by
    simp [trimPrefixGo, List.isPrefixOf]
  simp [addPath, h1, h2]

theorem takeWhile_append_stop (p : Char → Bool) (l : Str) (x : Char) (r : Str)
    (hl : ∀ y ∈ l, p y = true) (hx : p x = false) :
    (l ++ x :: r).takeWhile p = l := by
  induction l with
  | nil => simp [List.takeWhile_cons, hx]
  | cons a as ih =>
    have ha : p a = true := hl a (by simp)
    have ih2 := ih (fun y hy => hl y (by simp [hy]))
    simp [List.takeWhile_cons, ha, ih2]

theorem goBase_append_seg (a seg : Str) (hne : seg ≠ []) (hsl : ∀ c ∈ seg, ¬ c = '/') :
    goBase (a ++ '/' :: seg) = seg := by
  have hpath : ¬ (a ++ '/' :: seg = []) := by simp
  obtain ⟨y, ys, hy⟩ := List.exists_cons_of_ne_nil (by simpa using hne : seg.reverse ≠ [])
  have hrev : (a ++ '/' :: seg).reverse = seg.reverse ++ '/' :: a.reverse := by
    rw [List.reverse_append, List.reverse_cons, List.append_assoc, List.singleton_append]
  have hyseg : y ∈ seg := by
    have : y ∈ seg.reverse := by rw [hy]; simp
    simpa using this
  have hybeq : (y == '/') = false := by
    simpa using hsl y hyseg
  have hdrop : ((a ++ '/' :: seg).reverse.dropWhile (fun c => c == '/')) =
      (a ++ '/' :: seg).reverse := by
    rw [hrev, hy, List.cons_append, List.dropWhile_cons, hybeq]
    simp
  have htake : ((a ++ '/' :: seg).reverse.takeWhile (fun c => !(c == '/'))) = seg.reverse := by
    rw [hrev]
    refine takeWhile_append_stop _ _ _ _ (fun c hc => ?_) (by simp)
    have : c ∈ seg := by simpa using hc
    simpa using hsl c this
  simp only [goBase, if_neg hpath, hdrop, List.reverse_reverse, htake]
  simp [hne]

theorem exists_ok_of_isOkE {ε α : Type} (x : Except ε α) (h : isOkE x = true) :
    ∃ a, x = Except.ok a := by
  cases x with
  | ok a => exact ⟨a, rfl⟩
  | error e => simp [isOkE] at h

theorem reposVisited_printStatus (st : List (Str × Char)) :
    reposVisited (printStatus st) = [] := by
  induction st with
  | nil => simp [printStatus, reposVisited]
  | cons hd tl ih =>
    obtain ⟨f, s⟩ := hd
    by_cases h : showsWorktree s = true
    · simp [printStatus, h, reposVisited, List.filterMap_cons] at ih ⊢
      exact ih
    · simp only [printStatus, if_neg h]
      exact ih

theorem statusLoop_visited (env : Env)
    (ho : ∀ n, env.openRepo n = Except.ok ())
    (hw : ∀ n, env.worktree n = Except.ok ())
    (hs : ∀ n, isOkE (env.repoStatus n) = true) :
    ∀ names, reposVisited (statusLoop env names).2 = names := by
  intro names
  induction names with
  | nil => simp [statusLoop, reposVisited]
  | cons n rest ih =>
    obtain ⟨st, hst⟩ := exists_ok_of_isOkE _ (hs n)
    simp only [statusLoop, ho n, hw n, hst]
    simp only [reposVisited, List.filterMap_cons, List.filterMap_append] at ih ⊢
    have hps := reposVisited_printStatus st
    simp only [reposVisited] at hps
    simp [hps, ih]


theorem mem_printStatus (st : List (Str × Char)) (a : Action) :
    a ∈ printStatus st ↔
      ∃ f c, (f, c) ∈ st ∧ showsWorktree c = true ∧ a = Action.print (statusLine f c) := by
  induction st with
  | nil => simp [printStatus]
  | cons hd tl ih =>
    obtain ⟨g, d⟩ := hd
    by_cases h : showsWorktree d = true
    · constructor
      · intro hmem
        simp only [printStatus, if_pos h] at hmem
        rcases List.mem_cons.mp hmem with rfl | hmem2
        · exact ⟨g, d, List.mem_cons_self _ _, h, rfl⟩
        · obtain ⟨f, c, hm, hsw, rfl⟩ := ih.mp hmem2
          exact ⟨f, c, List.mem_cons_of_mem _ hm, hsw, rfl⟩
      · rintro ⟨f, c, hm, hsw, rfl⟩
        simp only [printStatus, if_pos h]
        rcases List.mem_cons.mp hm with heq | hm2
        · simp only [Prod.mk.injEq] at heq
          obtain ⟨rfl, rfl⟩ := heq
          exact List.mem_cons_self _ _
        · exact List.mem_cons_of_mem _ (ih.mpr ⟨f, c, hm2, hsw, rfl⟩)
    · simp only [printStatus, if_neg h]
      rw [ih]
      constructor
      · rintro ⟨f, c, hm, hsw, rfl⟩
        exact ⟨f, c, List.mem_cons_of_mem _ hm, hsw, rfl⟩
      · rintro ⟨f, c, hm, hsw, rfl⟩
        rcases List.mem_cons.mp hm with heq | hm2
        · exfalso
          simp only [Prod.mk.injEq] at heq
          obtain ⟨rfl, rfl⟩ := heq
          exact h hsw
        · exact ⟨f, c, hm2, hsw, rfl⟩

theorem statusLine_inj (f g : Str) (c d : Char) (h : statusLine f c = statusLine g d) :
    f = g ∧ c = d := by
  simp only [statusLine, List.cons.injEq] at h
  exact ⟨h.2.2.2.2, h.2.1⟩

theorem key_unique (st : List (Str × Char)) (h : (st.map Prod.fst).Nodup)
    (f : Str) (c c2 : Char) (h1 : (f, c) ∈ st) (h2 : (f, c2) ∈ st) : c = c2 := by
  induction st with
  | nil => simp at h1
  | cons hd tl ih =>
    obtain ⟨g, d⟩ := hd
    simp only [List.map_cons, List.nodup_cons] at h
    rcases List.mem_cons.mp h1 with he1 | hm1 <;> rcases List.mem_cons.mp h2 with he2 | hm2
    · simp only [Prod.mk.injEq] at he1 he2
      rw [he1.2, he2.2]
    · exfalso
      simp only [Prod.mk.injEq] at he1
      apply h.1
      rw [← he1.1]
      exact List.mem_map.mpr ⟨(f, c2), hm2, rfl⟩
    · exfalso
      simp only [Prod.mk.injEq] at he2
      apply h.1
      rw [← he2.1]
      exact List.mem_map.mpr ⟨(f, c), hm1, rfl⟩
    · exact ih h.2 hm1 hm2

theorem printStatus_count_one (st : List (Str × Char)) (h : (st.map Prod.fst).Nodup)
    (f : Str) (c : Char) (hm : (f, c) ∈ st) (hs : showsWorktree c = true) :
    (printStatus st).count (Action.print (statusLine f c)) = 1 := by
  induction st with
  | nil => simp at hm
  | cons hd tl ih =>
    obtain ⟨g, d⟩ := hd
    simp only [List.map_cons, List.nodup_cons] at h
    rcases List.mem_cons.mp hm with he | hm2
    · simp only [Prod.mk.injEq] at he
      obtain ⟨rfl, rfl⟩ := he
      simp only [printStatus, if_pos hs]
      rw [List.count_cons_self]
      have hzero : (printStatus tl).count (Action.print (statusLine f c)) = 0 := by
        rw [List.count_eq_zero]
        intro hmem
        obtain ⟨f2, c2, hm2, hsw2, heq⟩ := (mem_printStatus tl _).mp hmem
        simp only [Action.print.injEq] at heq
        obtain ⟨hf, _⟩ := statusLine_inj f f2 c c2 heq
        apply h.1
        rw [hf]
        exact List.mem_map.mpr ⟨(f2, c2), hm2, rfl⟩
      rw [hzero]
    · have hg : g ≠ f := by
        intro hgf
        apply h.1
        rw [hgf]
        exact List.mem_map.mpr ⟨(f, c), hm2, rfl⟩
      by_cases hd2 : showsWorktree d = true
      · simp only [printStatus, if_pos hd2]
        have hne : Action.print (statusLine f c) ≠ Action.print (statusLine g d) := by
          intro he
          simp only [Action.print.injEq] at he
          exact hg (statusLine_inj f g c d he).1.symm
        rw [List.count_cons_of_ne hne]
        exact ih h.2 hm2
      · simp only [printStatus, if_neg hd2]
        exact ih h.2 hm2

theorem printStatus_not_shown (st : List (Str × Char)) (h : (st.map Prod.fst).Nodup)
    (f : Str) (c : Char) (hm : (f, c) ∈ st) (hs : showsWorktree c = false)
    (c2 : Char) : Action.print (statusLine f c2) ∉ printStatus st := by
  intro hmem
  obtain ⟨f3, c3, hm3, hsw3, heq⟩ := (mem_printStatus st _).mp hmem
  simp only [Action.print.injEq] at heq
  obtain ⟨hf3, hc3⟩ := statusLine_inj f f3 c2 c3 heq
  rw [← hf3] at hm3
  have hcc : showsWorktree c = true := by
    rw [key_unique st h f c c3 hm hm3, ← hc3]
    rw [hc3]
    exact hsw3
  rw [hs] at hcc
  exact Bool.false_ne_true hcc

/-- C1: for every file whose absolute path lies inside the working
directory, `executeAdd` stages exactly the path obtained by stripping the
absolute working-directory prefix and then one leading separator — the
file's location relative to the working-directory root. -/
theorem C1_add_stages_relative_path (env : Env) (name file rel : Str)
    (ho : env.openRepo name = Except.ok ())
    (hw : env.worktree name = Except.ok ())
    (habs : env.absPath file = env.absPath dotfilesWorkdir ++ '/' :: rel) :
    (executeAdd env name file).2 =
      [Action.print ("Adding ".data ++ file ++ " to ".data ++ name),
       Action.openRepo name, Action.worktree name, Action.stage name rel] := by
  simp only [executeAdd, ho, hw, habs, addPath_inside]

theorem C1_add_stages_relative_path_witness :
    (executeAdd envA "core".data "/tmp/workdir/f.conf".data).2 =
      [Action.print ("Adding ".data ++ "/tmp/workdir/f.conf".data ++ " to ".data ++ "core".data),
       Action.openRepo "core".data, Action.worktree "core".data,
       Action.stage "core".data "f.conf".data] :=
  C1_add_stages_relative_path envA "core".data "/tmp/workdir/f.conf".data "f.conf".data
    rfl rfl (by decide)

/-- C2: if either author environment variable is empty, `executeSave`
returns an error and neither a commit nor a push is ever performed. -/
theorem C2_save_requires_author (env : Env) (name msg : Str)
    (h : env.authorName = [] ∨ env.authorEmail = []) :
    (∃ e, (executeSave env name msg).1 = Except.error e) ∧
    (∀ n m, Action.commit n m ∉ (executeSave env name msg).2) ∧
    (∀ n, Action.push n ∉ (executeSave env name msg).2) := by
  cases ho : env.openRepo name with
  | error e => refine ⟨⟨e, ?_⟩, ?_, ?_⟩ <;> simp [executeSave, ho]
  | ok u =>
    cases u
    cases hw : env.worktree name with
    | error e => refine ⟨⟨e, ?_⟩, ?_, ?_⟩ <;> simp [executeSave, ho, hw]
    | ok v =>
      cases v
      have hga : getAuthor env = Except.error
          "GIT_AUTHOR_NAME and GIT_AUTHOR_EMAIL envionment variables must exist.".data := by
        unfold getAuthor
        rw [if_pos h]
      refine ⟨⟨"GIT_AUTHOR_NAME and GIT_AUTHOR_EMAIL envionment variables must exist.".data,
        ?_⟩, ?_, ?_⟩ <;> simp [executeSave, ho, hw, hga]

theorem C2_save_requires_author_witness :
    Action.commit "core".data "msg".data ∉
      (executeSave envNoAuthor "core".data "msg".data).2 :=
  (C2_save_requires_author envNoAuthor "core".data "msg".data (Or.inl rfl)).2.1
    "core".data "msg".data

/-- C3: `init` derives the repo name as the URL's final path segment with no
extension stripping, and (auth permitting) clones the bare repo at the base
directory joined with exactly that segment. -/
theorem C3_init_name_is_final_segment (env : Env) (a seg : Str)
    (hne : seg ≠ []) (hsl : ∀ c ∈ seg, ¬ c = '/') :
    baseName (a ++ '/' :: seg) = seg ∧
    (env.authMethod = Except.ok () →
      Action.clone (goJoin2 dotfilesBasedir seg) (a ++ '/' :: seg) ∈
        (executeInit env (a ++ '/' :: seg)).2) := by
  have hb : baseName (a ++ '/' :: seg) = seg := goBase_append_seg a seg hne hsl
  refine ⟨hb, fun hauth => ?_⟩
  simp only [executeInit, hauth, hb]
  cases env.clone (goJoin2 dotfilesBasedir seg) (a ++ '/' :: seg) with
  | error e => simp
  | ok u =>
    cases u
    cases env.openWork with
    | error e => simp
    | ok v =>
      cases v
      cases env.initWorktree with
      | error e => simp
      | ok w => cases w; simp

theorem C3_init_name_is_final_segment_witness :
    baseName ("git@bitbucket.org:andoco".data ++ '/' :: "dotfiles-core.git".data) =
      "dotfiles-core.git".data ∧
    (envA.authMethod = Except.ok () →
      Action.clone (goJoin2 dotfilesBasedir "dotfiles-core.git".data)
          ("git@bitbucket.org:andoco".data ++ '/' :: "dotfiles-core.git".data) ∈
        (executeInit envA ("git@bitbucket.org:andoco".data ++ '/' :: "dotfiles-core.git".data)).2) :=
  C3_init_name_is_final_segment envA "git@bitbucket.org:andoco".data "dotfiles-core.git".data
    (by decide) (by decide)

/-- C4 counterexample: a file whose absolute path lies outside the working
directory does not make `executeAdd` fail — with a staging call that
succeeds, `executeAdd` returns no error and stages the file's absolute path
stripped of its leading separator. -/
theorem C4_counterexample :
    (envA.absPath dotfilesWorkdir).isPrefixOf (envA.absPath "/home/u/f.conf".data) = false ∧
    (executeAdd envA "core".data "/home/u/f.conf".data).1 = Except.ok () ∧
    Action.stage "core".data "home/u/f.conf".data ∈
      (executeAdd envA "core".data "/home/u/f.conf".data).2 := by
  refine ⟨by decide, rfl, by decide⟩

/-- C4 amended: for a file whose absolute path does not extend the absolute
working-directory path, `executeAdd` performs no validation: the prefix
strip is a no-op, it stages the absolute path stripped of one leading
separator, and it returns an error only if that staging call fails. -/
theorem C4_add_outside_not_validated (env : Env) (name file : Str)
    (ho : env.openRepo name = Except.ok ())
    (hw : env.worktree name = Except.ok ())
    (hout : (env.absPath dotfilesWorkdir).isPrefixOf (env.absPath file) = false) :
    (executeAdd env name file).1 = env.stage name (trimPrefixGo (env.absPath file) ['/']) ∧
    Action.stage name (trimPrefixGo (env.absPath file) ['/']) ∈
      (executeAdd env name file).2 := by
  have hp : addPath (env.absPath file) (env.absPath dotfilesWorkdir) =
      trimPrefixGo (env.absPath file) ['/'] := by
    simp [addPath, trimPrefixGo_of_not_prefixOf _ _ hout]
  simp [executeAdd, ho, hw, hp]

theorem C4_add_outside_not_validated_witness :
    (executeAdd envA "core".data "/home/u/g.conf".data).1 =
      envA.stage "core".data (trimPrefixGo (envA.absPath "/home/u/g.conf".data) ['/']) ∧
    Action.stage "core".data (trimPrefixGo (envA.absPath "/home/u/g.conf".data) ['/']) ∈
      (executeAdd envA "core".data "/home/u/g.conf".data).2 :=
  C4_add_outside_not_validated envA "core".data "/home/u/g.conf".data rfl rfl (by decide)

/-- C5: `status` with no repo name enumerates every base-directory entry
(hence every `*.git` entry) exactly once, in directory-listing order: the
repos visited by the loop are exactly the listed entries with the `.git`
suffix trimmed, in order. -/
theorem C5_status_enumerates_in_order (env : Env) (files : List Str)
    (hr : env.readBasedir = Except.ok files)
    (ho : ∀ n, env.openRepo n = Except.ok ())
    (hw : ∀ n, env.worktree n = Except.ok ())
    (hs : ∀ n, isOkE (env.repoStatus n) = true) :
    reposVisited (executeStatus env []).2 =
      files.map (fun n => trimSuffixGo n ".git".data) := by
  have h2 := statusLoop_visited env ho hw hs (files.map (fun n => trimSuffixGo n ".git".data))
  simp only [executeStatus, if_pos rfl, hr]
  simp only [reposVisited, List.filterMap_cons] at h2 ⊢
  exact h2

theorem C5_status_enumerates_in_order_witness :
    reposVisited (executeStatus envA []).2 =
      ["alpha.git".data, "notes.txt".data].map (fun n => trimSuffixGo n ".git".data) :=
  C5_status_enumerates_in_order envA ["alpha.git".data, "notes.txt".data] rfl
    (fun _ => rfl) (fun _ => rfl) (fun _ => rfl)

/-- C6: the status section printed for a repo holds exactly one line per
file whose worktree status is Modified, Added or Deleted, prefixed with its
single-character status code in brackets, and no line for any other file. -/
theorem C6_status_prints_filtered (env : Env) (name : Str) (st : List (Str × Char))
    (hn : name ≠ [])
    (ho : env.openRepo name = Except.ok ())
    (hw : env.worktree name = Except.ok ())
    (hst : env.repoStatus name = Except.ok st)
    (hnd : (st.map Prod.fst).Nodup) :
    (executeStatus env name).2 =
      Action.print (name ++ [':']) :: Action.openRepo name :: Action.worktree name ::
        Action.statusOf name :: printStatus st ∧
    (∀ f c, (f, c) ∈ st → showsWorktree c = true →
      (printStatus st).count (Action.print (statusLine f c)) = 1) ∧
    (∀ f c, (f, c) ∈ st → showsWorktree c = false →
      ∀ c2, Action.print (statusLine f c2) ∉ printStatus st) := by
  refine ⟨?_, fun f c hm hs => printStatus_count_one st hnd f c hm hs,
    fun f c hm hs c2 => printStatus_not_shown st hnd f c hm hs c2⟩
  simp [executeStatus, if_neg hn, statusLoop, ho, hw, hst]

theorem C6_status_prints_filtered_witness :
    (executeStatus envA "core".data).2 =
      Action.print ("core".data ++ [':']) :: Action.openRepo "core".data ::
        Action.worktree "core".data :: Action.statusOf "core".data ::
        printStatus [("f1".data, 'M'), ("f2".data, '?')] ∧
    (∀ f c, (f, c) ∈ [("f1".data, 'M'), ("f2".data, '?')] → showsWorktree c = true →
      (printStatus [("f1".data, 'M'), ("f2".data, '?')]).count
        (Action.print (statusLine f c)) = 1) ∧
    (∀ f c, (f, c) ∈ [("f1".data, 'M'), ("f2".data, '?')] → showsWorktree c = false →
      ∀ c2, Action.print (statusLine f c2) ∉
        printStatus [("f1".data, 'M'), ("f2".data, '?')]) :=
  C6_status_prints_filtered envA "core".data [("f1".data, 'M'), ("f2".data, '?')]
    (by decide) rfl rfl rfl (by decide)

/-- C7: `list --verbose` always fails with the fixed not-implemented error
before any directory read; `list` without the flag prints exactly one line
per base-directory entry, the entry's name with its trailing extension
trimmed. -/
theorem C7_list_behavior (env : Env) (files : List Str) :
    executeList env true = (Except.error "verbose listing not implemented.".data, []) ∧
    (env.readBasedir = Except.ok files →
      executeList env false =
        (Except.ok (),
         Action.readDir :: files.map (fun n => Action.print (trimSuffixGo n (extGo n))))) := by
  refine ⟨by simp [executeList], fun hr => by simp [executeList, hr]⟩

theorem C7_list_behavior_witness :
    executeList envA true = (Except.error "verbose listing not implemented.".data, []) ∧
    executeList envA false =
      (Except.ok (),
       Action.readDir :: ["alpha.git".data, "notes.txt".data].map
         (fun n => Action.print (trimSuffixGo n (extGo n)))) :=
  ⟨(C7_list_behavior envA ["alpha.git".data, "notes.txt".data]).1,
   (C7_list_behavior envA ["alpha.git".data, "notes.txt".data]).2 rfl⟩

/-- C8: each command returns the first error it meets and performs none of
the remaining steps, with no rollback; in particular a push failure after a
successful commit leaves the commit action performed with nothing undoing
it. -/
theorem C8_first_error_propagation (env : Env) (name msg file : Str) (e : Str) :
    (env.openRepo name = Except.error e →
      executeSave env name msg = (Except.error e, [Action.openRepo name]) ∧
      executeAdd env name file =
        (Except.error e,
         [Action.print ("Adding ".data ++ file ++ " to ".data ++ name),
          Action.openRepo name]) ∧
      executePull env name = (Except.error e, [Action.openRepo name])) ∧
    (env.openRepo name = Except.ok () → env.worktree name = Except.error e →
      executeSave env name msg =
        (Except.error e, [Action.openRepo name, Action.worktree name])) ∧
    (env.openRepo name = Except.ok () → env.worktree name = Except.ok () →
      env.authorName ≠ [] → env.authorEmail ≠ [] → env.commit name msg = Except.error e →
      executeSave env name msg =
        (Except.error e,
         [Action.openRepo name, Action.worktree name, Action.commit name msg])) ∧
    (env.openRepo name = Except.ok () → env.worktree name = Except.ok () →
      env.authorName ≠ [] → env.authorEmail ≠ [] → env.commit name msg = Except.ok () →
      env.authMethod = Except.ok () → env.push name = Except.error e →
      executeSave env name msg =
        (Except.error e,
         [Action.openRepo name, Action.worktree name, Action.commit name msg, Action.auth,
          Action.push name]) ∧
      Action.commit name msg ∈ (executeSave env name msg).2) := by
  refine ⟨fun ho => ⟨?_, ?_, ?_⟩, fun ho hw => ?_, fun ho hw hn he hc => ?_,
    fun ho hw hn he hc ha hp => ⟨?_, ?_⟩⟩ <;>
    simp [executeSave, executeAdd, executePull, getAuthor, *]

theorem C8_first_error_propagation_witness :
    executeSave envPushFail "core".data "m".data =
      (Except.error "push failed".data,
       [Action.openRepo "core".data, Action.worktree "core".data,
        Action.commit "core".data "m".data, Action.auth, Action.push "core".data]) :=
  ((C8_first_error_propagation envPushFail "core".data "m".data "x".data
      "push failed".data).2.2.2 rfl rfl (by decide) (by decide) rfl rfl rfl).1

/-- C9: the `undo` command is declared but never dispatched: for any repo
name and environment, running it performs no action and exits 0. -/
theorem C9_undo_is_never_dispatched (env : Env) (name : Str) :
    mainRun env (Command.undoCmd name) = (0, []) := rfl

/-- C10: base-directory entries not ending in `.git` are enumerated too —
the `.git` suffix-trim is a no-op on them — and the status loop goes on to
open each such name as a repo. -/
theorem C10_non_git_entries_enumerated (env : Env) (files : List Str) (e : Str)
    (hr : env.readBasedir = Except.ok files)
    (ho : ∀ n, env.openRepo n = Except.ok ())
    (hw : ∀ n, env.worktree n = Except.ok ())
    (hs : ∀ n, isOkE (env.repoStatus n) = true)
    (he : e ∈ files)
    (hng : (".git".data).isSuffixOf e = false) :
    trimSuffixGo e ".git".data = e ∧
    Action.openRepo e ∈ (executeStatus env []).2 := by
  have ht : trimSuffixGo e ".git".data = e := trimSuffixGo_of_not_suffixOf e _ hng
  refine ⟨ht, ?_⟩
  have hv := statusLoop_visited env ho hw hs (files.map (fun n => trimSuffixGo n ".git".data))
  have hmem : e ∈ files.map (fun n => trimSuffixGo n ".git".data) :=
    List.mem_map.mpr ⟨e, he, ht⟩
  rw [← hv] at hmem
  simp only [reposVisited] at hmem
  obtain ⟨a, ha, hae⟩ := List.mem_filterMap.mp hmem
  have hopenmem : Action.openRepo e ∈
      (statusLoop env (files.map (fun n => trimSuffixGo n ".git".data))).2 := by
    cases a <;> simp at hae
    subst hae
    exact ha
  simp only [executeStatus, if_pos rfl, hr]
  exact List.mem_cons_of_mem _ hopenmem

theorem C10_non_git_entries_enumerated_witness :
    trimSuffixGo "notes.txt".data ".git".data = "notes.txt".data ∧
    Action.openRepo "notes.txt".data ∈ (executeStatus envA []).2 :=
  C10_non_git_entries_enumerated envA ["alpha.git".data, "notes.txt".data] "notes.txt".data
    rfl (fun _ => rfl) (fun _ => rfl) (fun _ => rfl) (by decide) (by decide)

end GoDotfiles
